import Mathlib

/-!
Verification of the zush prompt-rendering core against its specification.

Each Rust function under scrutiny is shallowly embedded as an executable
Lean definition operating on `List Char` (Rust strings), `Nat` (machine
integers, all values involved stay far below any overflow boundary) and
`ℚ` (for the two `f32` color formulas, which are exact at every amount
used in the theorems below).  A Rust panic is modelled as `Option.none`;
a Rust `Result`/`anyhow::Result` as `Except (List Char) α`.
-/

namespace Zush

/-! ## Color model (src/color/mod.rs) -/

/-- Model of `Color`: a 24-bit RGB color.  Channels are `Nat` carrying the
`u8` invariant `≤ 255` as a hypothesis where needed. -/
structure Color where
  r : Nat
  g : Nat
  b : Nat
deriving Repr, DecidableEq

/-- UTF-8 byte length of a Rust string (`str::len`). -/
def byteLen (l : List Char) : Nat := (l.map Char.utf8Size).sum

/-- Model of the byte slice `&s[..k]` restricted to its first component:
returns the characters making up the first `k` bytes, or `none` when `k`
is not a character boundary or exceeds the length (a Rust panic). -/
def takeBytes : Nat → List Char → Option (List Char)
  | 0, _ => some []
  | _ + 1, [] => none
  | k + 1, c :: rest =>
    if c.utf8Size ≤ k + 1 then (takeBytes (k + 1 - c.utf8Size) rest).map (fun t => c :: t)
    else none

/-- Model of dropping the first `k` bytes of a Rust string; `none` is a
panic (not a character boundary, or out of range). -/
def dropBytes : Nat → List Char → Option (List Char)
  | 0, l => some l
  | _ + 1, [] => none
  | k + 1, c :: rest =>
    if c.utf8Size ≤ k + 1 then dropBytes (k + 1 - c.utf8Size) rest
    else none

/-- Model of the byte slice `&s[a..b]`; `none` is a Rust panic. -/
def sliceBytes (a b : Nat) (l : List Char) : Option (List Char) :=
  (dropBytes a l).bind (takeBytes (b - a))

/-- The digit set accepted by `u8::from_str_radix(_, 16)`. -/
def hexDigits : List Char := "0123456789abcdefABCDEF".toList

/-- Whether a character is a hexadecimal digit in either case. -/
def isHexDigitB (c : Char) : Bool := hexDigits.contains c

/-- Numeric value of a hexadecimal digit (as in `char::to_digit(16)`). -/
def hexVal (c : Char) : Nat :=
  if c.isDigit then c.toNat - '0'.toNat
  else if 'a' ≤ c then c.toNat - 'a'.toNat + 10
  else c.toNat - 'A'.toNat + 10

/-- Digit run of `u8::from_str_radix(_, 16)` after the optional sign:
rejects empty input and non-hex characters, accumulates the value, and
rejects values exceeding `u8::MAX`. -/
def parseHexDigitsU8 (s : List Char) : Except (List Char) Nat :=
  if s = [] then .error "cannot parse integer from empty string".toList
  else if s.all isHexDigitB then
    let v := s.foldl (fun a c => a * 16 + hexVal c) 0
    if v ≤ 255 then .ok v else .error "number too large to fit in target type".toList
  else .error "invalid digit found in string".toList

/-- Model of `u8::from_str_radix(s, 16)`: an optional leading plus sign,
then hex digits.  A minus sign (or any other non-digit) is an invalid
digit for the unsigned type. -/
def fromStrRadix16U8 (s : List Char) : Except (List Char) Nat :=
  match s with
  | [] => .error "cannot parse integer from empty string".toList
  | c :: rest => if c = '+' then parseHexDigitsU8 rest else parseHexDigitsU8 (c :: rest)

/-- Model of `Color::from_hex`: strips every leading `#`
(`trim_start_matches`), requires exactly 6 remaining bytes, then parses
the three byte-pair slices in order.  `none` models the panic that Rust
byte slicing raises when an index falls inside a multi-byte character. -/
def fromHex (input : List Char) : Option (Except (List Char) Color) :=
  let hex := input.dropWhile (fun c => c = '#')
  if byteLen hex ≠ 6 then some (.error ("Invalid hex color: ".toList ++ hex))
  else
    match sliceBytes 0 2 hex with
    | none => none
    | some s1 =>
      match fromStrRadix16U8 s1 with
      | .error e => some (.error e)
      | .ok rv =>
        match sliceBytes 2 4 hex with
        | none => none
        | some s2 =>
          match fromStrRadix16U8 s2 with
          | .error e => some (.error e)
          | .ok gv =>
            match sliceBytes 4 6 hex with
            | none => none
            | some s3 =>
              match fromStrRadix16U8 s3 with
              | .error e => some (.error e)
              | .ok bv => some (.ok ⟨rv, gv, bv⟩)

/-- Two lowercase hex digits of a byte (the `{:02x}` format for `u8`). -/
def hexByte (n : Nat) : List Char := [Nat.digitChar (n / 16), Nat.digitChar (n % 16)]

/-- Model of `Color::to_hex`: `#` followed by the three channels in
two-digit lowercase hex. -/
def toHex (c : Color) : List Char := '#' :: (hexByte c.r ++ hexByte c.g ++ hexByte c.b)

/-- Model of `f32::clamp(lo, hi)` on exact rationals. -/
def clampQ (x lo hi : ℚ) : ℚ := min hi (max lo x)

/-- Model of the `as u8` cast applied to a non-NaN float: truncate toward
zero and saturate into `[0, 255]`. -/
def truncU8 (q : ℚ) : Nat := min 255 (Int.toNat ⌊q⌋)

/-- Model of `Color::lighten`: clamp the amount to `[0, 1]` and move each
channel linearly toward 255, truncating.  `f32` arithmetic is modelled by
exact rational arithmetic; at every amount used in the theorems below the
`f32` computation is exact, so the model agrees with the code there. -/
def lighten (c : Color) (amount : ℚ) : Color :=
  let a := clampQ amount 0 1
  ⟨truncU8 ((c.r : ℚ) + (255 - (c.r : ℚ)) * a),
   truncU8 ((c.g : ℚ) + (255 - (c.g : ℚ)) * a),
   truncU8 ((c.b : ℚ) + (255 - (c.b : ℚ)) * a)⟩

/-- Model of `Color::darken`: clamp the amount to `[0, 1]` and scale each
channel by `1 - amount`, truncating. -/
def darken (c : Color) (amount : ℚ) : Color :=
  let a := clampQ amount 0 1
  ⟨truncU8 ((c.r : ℚ) * (1 - a)),
   truncU8 ((c.g : ℚ) * (1 - a)),
   truncU8 ((c.b : ℚ) * (1 - a))⟩

/-! ## Terminal buffer (src/buffer/mod.rs) -/

/-- Modelled from the unicode-width crate: display width of one character.
Control characters get width 0, a few representative wide (CJK) ranges get
width 2, everything else width 1.  Every character appearing in the
theorems below is ASCII, where this model matches the crate exactly; the
general theorems in this file do not depend on the table values. -/
def charWidth (c : Char) : Nat :=
  if c.toNat < 0x20 ∨ c.toNat = 0x7f then 0
  else if (0x1100 ≤ c.toNat ∧ c.toNat ≤ 0x115F) ∨ (0x2E80 ≤ c.toNat ∧ c.toNat ≤ 0x303E) ∨
      (0x3041 ≤ c.toNat ∧ c.toNat ≤ 0x4DBF) ∨ (0x4E00 ≤ c.toNat ∧ c.toNat ≤ 0x9FFF) ∨
      (0xAC00 ≤ c.toNat ∧ c.toNat ≤ 0xD7A3) ∨ (0xF900 ≤ c.toNat ∧ c.toNat ≤ 0xFAFF) ∨
      (0xFF00 ≤ c.toNat ∧ c.toNat ≤ 0xFF60) then 2
  else 1

/-- Display width of a whole string (`UnicodeWidthStr::width`); in the
model every grapheme cluster is a single character. -/
def strWidth (t : List Char) : Nat := (t.map charWidth).sum

/-- State machine of `TerminalBuffer::visible_width`, carrying the
`in_escape` flag: an `ESC` enters escape mode, which the next `m` leaves;
characters outside escapes contribute their display width. -/
def visibleWidthAux : Bool → List Char → Nat
  | _, [] => 0
  | inEsc, c :: rest =>
    if c = '\x1b' then visibleWidthAux true rest
    else if inEsc then visibleWidthAux (if c = 'm' then false else true) rest
    else charWidth c + visibleWidthAux inEsc rest

/-- Model of `TerminalBuffer::visible_width`. -/
def visibleWidth (s : List Char) : Nat := visibleWidthAux false s

/-- Final `in_escape` state after scanning a string with the
`visible_width` state machine. -/
def scanEsc : Bool → List Char → Bool
  | st, [] => st
  | inEsc, c :: rest =>
    if c = '\x1b' then scanEsc true rest
    else if inEsc then scanEsc (if c = 'm' then false else true) rest
    else scanEsc inEsc rest

/-- Continuation-cell loop of `write_at`: writes `k` continuation markers
for a wide character, bounded by the buffer width. -/
def contCells (width : Nat) : Nat → List Char → List String → Nat → String →
    List Char × List String × Nat
  | 0, content, styles, col, _ => (content, styles, col)
  | k + 1, content, styles, col, style =>
    if col < width then
      contCells width k (content.set col '\x00') (styles.set col style) (col + 1) style
    else contCells width k content styles col style

/-- Main loop of `TerminalBuffer::write_at` on a single row: writes each
character (grapheme) at the running column, stopping at the right edge.
A wide character puts its first code point in the leading cell and a
`NUL` continuation marker in the trailing cell(s). -/
def writeAtAux (width : Nat) : List Char → List Char → List String → Nat → String →
    List Char × List String
  | [], content, styles, _, _ => (content, styles)
  | g :: rest, content, styles, col, style =>
    let w := charWidth g
    if width < col + w then (content, styles)
    else if 0 < w then
      let step :=
        if col < width then (content.set col g, styles.set col style, col + 1)
        else (content, styles, col)
      let step2 := contCells width (w - 1) step.1 step.2.1 step.2.2 style
      writeAtAux width rest step2.1 step2.2.1 step2.2.2 style
    else writeAtAux width rest content styles col style

/-- Model of `TerminalBuffer::write_at` on one row: silently ignores
writes whose start column is out of bounds. -/
def writeAt (width : Nat) (content : List Char) (styles : List String) (col : Nat)
    (text : List Char) (style : String) : List Char × List String :=
  if width ≤ col then (content, styles)
  else writeAtAux width text content styles col style

/-- Column chosen for the center section by `write_three_sections`:
`(width - center_width) / 2`, clamped to at least `left_width + 1`. -/
def centerCol (width lw cw : Nat) : Nat := max ((width - cw) / 2) (lw + 1)

/-- Column chosen for the right section by `write_three_sections`:
`width - right_width`, combined with the center end via `min`, then
clamped to at least `left_width + 1`. -/
def rightColumn (width lw cw rw : Nat) (hasCenter : Bool) : Nat :=
  let rightPos := width - rw
  let minRightPos := if hasCenter then min ((width - cw) / 2 + cw + 1) rightPos else rightPos
  max minRightPos (lw + 1)

/-- Model of `TerminalBuffer::write_three_sections` on one row. -/
def writeThreeSections (width : Nat) (content : List Char) (styles : List String)
    (left center right : Option (List Char))
    (leftStyle centerStyle rightStyle : Option String) : List Char × List String :=
  let leftText := left.getD []
  let centerText := center.getD []
  let rightText := right.getD []
  let lw := strWidth leftText
  let cw := strWidth centerText
  let rw := strWidth rightText
  let afterLeft :=
    if leftText ≠ [] then writeAt width content styles 0 leftText (leftStyle.getD "")
    else (content, styles)
  let afterCenter :=
    if centerText ≠ [] then
      writeAt width afterLeft.1 afterLeft.2 (centerCol width lw cw) centerText
        (centerStyle.getD "")
    else afterLeft
  if rightText ≠ [] then
    writeAt width afterCenter.1 afterCenter.2 (rightColumn width lw cw rw (centerText ≠ []))
      rightText (rightStyle.getD "")
  else afterCenter

/-- The SGR reset sequence `ESC[0m`. -/
def resetCode : List Char := ['\x1b', '[', '0', 'm']

/-- Index of the last non-space cell of a row (0 when every cell is a
space), exactly as computed by the reverse scan in `render_line`. -/
def lastNonSpace (content : List Char) : Nat :=
  (((List.range content.length).reverse).find? (fun i => content.getD i ' ' != ' ')).getD 0

/-- One iteration of the `render_line` output loop: skip continuation
markers, re-open the style when it differs from the running one (closing
a previous non-empty style with a reset), then emit the cell character. -/
def renderStep (content : List Char) (styles : List String) (acc : List Char × String)
    (col : Nat) : List Char × String :=
  let ch := content.getD col ' '
  if ch = '\x00' then acc
  else
    let st := styles.getD col ""
    let acc2 :=
      if st ≠ acc.2 then
        (acc.1 ++ (if acc.2 ≠ "" then resetCode else []) ++ st.toList, st)
      else acc
    (acc2.1 ++ [ch], acc2.2)

/-- The `render_line` output loop over a list of column indices. -/
def renderLoop (content : List Char) (styles : List String) (cols : List Nat) :
    List Char × String :=
  cols.foldl (renderStep content styles) ([], "")

/-- Model of `TerminalBuffer::render_line` on one (in-range, nonempty)
row: emit columns `0..=last_non_space`, closing a final non-empty style
run with a reset. -/
def renderLine (content : List Char) (styles : List String) : List Char :=
  let result := renderLoop content styles (List.range (lastNonSpace content + 1))
  result.1 ++ (if result.2 ≠ "" then resetCode else [])

/-! ## Template helpers (src/template/mod.rs) -/

/-- Model of `fill_space_helper`: emit exactly the number of spaces
needed to fill the terminal width next to the two contents (measured
ANSI-aware) and the extra offset; emit nothing when there is no room. -/
def fillSpace (terminalWidth : Nat) (leftContent rightContent : List Char) (offset : Nat) :
    List Char :=
  let totalContent := visibleWidth leftContent + visibleWidth rightContent + offset
  if totalContent < terminalWidth then List.replicate (terminalWidth - totalContent) ' '
  else []

/-- Model of the first-line composition in `render_prompt`
(src/main.rs): concatenate left and right with just enough spaces
between them, or directly when they do not fit. -/
def buildFirstLine (terminalWidth : Nat) (leftOutput rightOutput : List Char) : List Char :=
  let totalContent := visibleWidth leftOutput + visibleWidth rightOutput
  if terminalWidth ≤ totalContent then leftOutput ++ rightOutput
  else leftOutput ++ List.replicate (terminalWidth - totalContent) ' ' ++ rightOutput

/-- Model of `str::split(sep)` collected into a list: every separator
occurrence splits, empty pieces are kept, and the empty string yields one
empty piece. -/
def splitOnChar (sep : Char) : List Char → List (List Char)
  | [] => [[]]
  | c :: rest =>
    let r := splitOnChar sep rest
    if c = sep then [] :: r else (c :: r.headD []) :: r.tail

/-- Model of `Vec::join("/")` for path segments. -/
def intercalateChar (sep : Char) : List (List Char) → List Char
  | [] => []
  | [x] => x
  | x :: y :: rest => x ++ sep :: intercalateChar sep (y :: rest)

/-- Model of `str::parse::<usize>()`: an optional leading plus sign then
at least one decimal digit.  (The machine-width overflow error is not
modelled; every mode string in the theorems below is tiny.) -/
def parseNatOpt (s : List Char) : Option Nat :=
  let digits := if s.head? = some '+' then s.tail else s
  if digits ≠ [] ∧ digits.all Char.isDigit then
    some (digits.foldl (fun a c => a * 10 + (c.toNat - '0'.toNat)) 0)
  else none

/-- Model of `format_path_helper`: the five mode branches (`last`,
`first:N`, `depth:N`, `ellipsis`, and the `full`/unknown fallthrough) in
source order. -/
def formatPath (path mode : List Char) : List Char :=
  if mode = "last".toList then
    match (splitOnChar '/' path).getLast? with
    | some lastSeg => if path.contains '/' then "…/".toList ++ lastSeg else lastSeg
    | none => path
  else if "first:".toList.isPrefixOf mode then
    let n := (parseNatOpt (mode.drop 6)).getD 1
    let segments := splitOnChar '/' path
    let formatted := (List.range segments.length).map (fun i =>
      let seg := segments.getD i []
      if seg = "~".toList ∨ i = segments.length - 1 ∨ seg = [] then seg else seg.take n)
    intercalateChar '/' formatted
  else if "depth:".toList.isPrefixOf mode then
    let n := (parseNatOpt (mode.drop 6)).getD 2
    let segments := (splitOnChar '/' path).filter (fun s => s ≠ [])
    if segments.length ≤ n then path
    else "…/".toList ++ intercalateChar '/' (segments.drop (segments.length - n))
  else if mode = "ellipsis".toList then
    let segments := (splitOnChar '/' path).filter (fun s => s ≠ [])
    if segments.length ≤ 2 then path
    else segments.headD [] ++ "/…/".toList ++ segments.getD (segments.length - 1) []
  else path

/-- Decimal digits of a natural number, fuelled to stay structural (the
fuel `n + 1` always suffices since `n / 10` shrinks). -/
def natDigitsF : Nat → Nat → List Char
  | 0, _ => []
  | fuel + 1, n =>
    if n < 10 then [Nat.digitChar n]
    else natDigitsF fuel (n / 10) ++ [Nat.digitChar (n % 10)]

/-- Decimal rendering of a natural number (the `{}` format for integers). -/
def natDigits (n : Nat) : List Char := natDigitsF (n + 1) n

/-- The `{:02}` format: decimal digits left-padded with zeros to width 2. -/
def pad2 (n : Nat) : List Char :=
  let d := natDigits n
  if d.length < 2 then List.replicate (2 - d.length) '0' ++ d else d

/-- Replacement loop of `str::replace` (leftmost, non-overlapping),
fuelled to stay structural; the pattern is never empty in this
development and each step consumes at least one character, so fuel
`s.length + 1` always suffices. -/
def replaceListF (pat rep : List Char) : Nat → List Char → List Char
  | 0, s => s
  | fuel + 1, s =>
    match s with
    | [] => []
    | c :: rest =>
      if pat.isPrefixOf s then rep ++ replaceListF pat rep fuel (s.drop pat.length)
      else c :: replaceListF pat rep fuel rest

/-- Model of `str::replace(pat, rep)` for a nonempty pattern. -/
def replaceList (s pat rep : List Char) : List Char :=
  if pat = [] then s else replaceListF pat rep (s.length + 1) s

/-- The hour in 12-hour form, as returned by chrono `hour12().1`. -/
def hour12Val (h : Nat) : Nat := if h % 12 = 0 then 12 else h % 12

/-- The wall-clock reading taken by `format_time_helper` via
`Local::now()`; the shallow embedding passes it explicitly. -/
structure LocalTime where
  hour : Nat
  minute : Nat
  second : Nat
deriving Repr, DecidableEq

/-- Model of `format_time_helper`.  Exactly as in the source, the
`timeValue` parameter is bound but never used: every `%` token is
replaced from the current wall clock `now`, then the inline style markers
are replaced by SGR codes, in source order. -/
def formatTimeHelper (timeValue formatStr : List Char) (now : LocalTime) : List Char :=
  let _ := timeValue
  let r := replaceList formatStr "%H".toList (pad2 now.hour)
  let r := replaceList r "%M".toList (pad2 now.minute)
  let r := replaceList r "%S".toList (pad2 now.second)
  let r := replaceList r "%I".toList (pad2 (hour12Val now.hour))
  let r := replaceList r "%p".toList (if now.hour < 12 then "AM".toList else "PM".toList)
  let r := replaceList r "(bold)".toList "\x1b[1m".toList
  let r := replaceList r "(/bold)".toList "\x1b[22m".toList
  let r := replaceList r "(b)".toList "\x1b[1m".toList
  let r := replaceList r "(/b)".toList "\x1b[22m".toList
  let r := replaceList r "(dim)".toList "\x1b[2m".toList
  let r := replaceList r "(/dim)".toList "\x1b[22m".toList
  let r := replaceList r "(d)".toList "\x1b[2m".toList
  let r := replaceList r "(/d)".toList "\x1b[22m".toList
  let r := replaceList r "(italic)".toList "\x1b[3m".toList
  let r := replaceList r "(/italic)".toList "\x1b[23m".toList
  let r := replaceList r "(i)".toList "\x1b[3m".toList
  let r := replaceList r "(/i)".toList "\x1b[23m".toList
  let r := replaceList r "(underline)".toList "\x1b[4m".toList
  let r := replaceList r "(/underline)".toList "\x1b[24m".toList
  let r := replaceList r "(u)".toList "\x1b[4m".toList
  let r := replaceList r "(/u)".toList "\x1b[24m".toList
  r

/-- Model of `truncate_helper`: when the byte length exceeds `maxLen`,
cut the text at byte index `maxLen - 3` (saturating) and append `...`;
`none` models the Rust panic raised when that byte index falls inside a
multi-byte character. -/
def truncateHelper (text : List Char) (maxLen : Nat) : Option (List Char) :=
  if maxLen < byteLen text then (takeBytes (maxLen - 3) text).map (fun t => t ++ "...".toList)
  else some text

/-- The byte offsets of the character boundaries of a string (including
0 and the total length). -/
def byteOffsets : List Char → List Nat
  | [] => [0]
  | c :: rest => 0 :: (byteOffsets rest).map (fun o => o + c.utf8Size)

/-- Whether byte index `i` is a character boundary of the string. -/
def isCharBoundary (t : List Char) (i : Nat) : Bool := (byteOffsets t).contains i

/-! ## Markup preprocessor (src/template/preprocessor.rs) -/

/-- Model of `StyleTag`: one parsed markup tag occurrence. -/
structure StyleTag where
  name : String
  args : Option String
  isClosing : Bool
deriving Repr, DecidableEq

/-- The accepted style-tag names, in source order. -/
def validStyles : List String :=
  ["bold", "b", "em", "i", "d", "u", "dim", "italic", "underline", "fg", "bg", "sym"]

/-- Model of `str::trim` (whitespace stripped from both ends). -/
def trimChars (l : List Char) : List Char :=
  ((l.dropWhile Char.isWhitespace).reverse.dropWhile Char.isWhitespace).reverse

/-- Model of `parse_style_tag`: starting at an opening parenthesis, an
optional `/`, an alphabetic name that must be a valid style, optional
whitespace, the argument run (only for opening tags) and the closing
parenthesis.  Returns the tag and the number of characters consumed, or
`none` when the text is not a style tag.  (`Char.isAlpha` restricts
Rust `char::is_alphabetic` to ASCII; they agree on every input
considered in the theorems below.) -/
def parseStyleTag (chars : List Char) : Option (StyleTag × Nat) :=
  match chars with
  | '(' :: rest =>
    let isClosing := rest.head? == some '/'
    let afterSign := if isClosing then rest.tail else rest
    let signLen := if isClosing then 2 else 1
    let name := afterSign.takeWhile Char.isAlpha
    let rest2 := afterSign.drop name.length
    if name = [] then none
    else if validStyles.contains (String.mk name) then
      let ws := rest2.takeWhile Char.isWhitespace
      let rest3 := rest2.drop ws.length
      let args := if isClosing then [] else rest3.takeWhile (fun c => c ≠ ')')
      let rest4 := rest3.drop args.length
      if rest4.head? = some ')' then
        some (⟨String.mk name, if args = [] then none else some (String.mk (trimChars args)),
               isClosing⟩,
              signLen + name.length + ws.length + args.length + 1)
      else none
    else none
  | _ => none

/-- The handlebars pass-through subloop of the preprocessor scanners:
starting just after the first `{` of a `{{` opener, copies characters
verbatim until a `}}` pair (inclusive) or the end of input.  Returns the
copied characters and the remaining input. -/
def hbSpan : List Char → List Char × List Char
  | [] => ([], [])
  | [c] => ([c], [])
  | c1 :: c2 :: rest =>
    if c1 = '}' ∧ c2 = '}' then ([c1, c2], rest)
    else
      let p := hbSpan (c2 :: rest)
      (c1 :: p.1, p.2)

/-- Model of `get_closing_code`: the paired SGR reset for each style
name (bold and dim share one reset; `sym` closes with nothing). -/
def getClosingCode (name : String) : Except (List Char) (List Char) :=
  if name = "bold" ∨ name = "b" then .ok "\x1b[22m".toList
  else if name = "dim" ∨ name = "d" then .ok "\x1b[22m".toList
  else if name = "italic" ∨ name = "em" ∨ name = "i" then .ok "\x1b[23m".toList
  else if name = "underline" ∨ name = "u" then .ok "\x1b[24m".toList
  else if name = "fg" then .ok "\x1b[39m".toList
  else if name = "bg" then .ok "\x1b[49m".toList
  else if name = "sym" then .ok []
  else .error ("Unknown style tag: ".toList ++ name.toList)

/-- A 24-bit SGR color sequence `ESC[base;2;r;g;bm`. -/
def sgrColorCode (base : Nat) (rgb : Nat × Nat × Nat) : List Char :=
  "\x1b[".toList ++ natDigits base ++ ";2;".toList ++ natDigits rgb.1 ++ [';'] ++
    natDigits rgb.2.1 ++ [';'] ++ natDigits rgb.2.2 ++ ['m']

/-- Model of `get_opening_code`.  Color-name resolution
(`resolve_color`, which consults the theme color table) and symbol
resolution (`resolve_symbol`, a fixed glyph table) live outside
`process_styles`; the embedding takes them as explicit function
parameters, and every theorem below holds for all of them. -/
def getOpeningCode (resolveColor : String → Except (List Char) (Nat × Nat × Nat))
    (resolveSymbol : String → Except (List Char) (List Char)) (tag : StyleTag) :
    Except (List Char) (List Char) :=
  if tag.name = "bold" ∨ tag.name = "b" then .ok "\x1b[1m".toList
  else if tag.name = "dim" ∨ tag.name = "d" then .ok "\x1b[2m".toList
  else if tag.name = "italic" ∨ tag.name = "em" ∨ tag.name = "i" then .ok "\x1b[3m".toList
  else if tag.name = "underline" ∨ tag.name = "u" then .ok "\x1b[4m".toList
  else if tag.name = "fg" then
    match tag.args with
    | some args =>
      match resolveColor args with
      | .ok rgb => .ok (sgrColorCode 38 rgb)
      | .error e => .error e
    | none => .error "fg tag requires color argument".toList
  else if tag.name = "bg" then
    match tag.args with
    | some args =>
      match resolveColor args with
      | .ok rgb => .ok (sgrColorCode 48 rgb)
      | .error e => .error e
    | none => .error "bg tag requires color argument".toList
  else if tag.name = "sym" then
    match tag.args with
    | some args => resolveSymbol args
    | none => .error "sym tag requires symbol name argument".toList
  else .error ("Unknown style tag: ".toList ++ tag.name.toList)

/-- Model of `Vec::rposition`: index of the last stack entry whose name
matches. -/
def rposition : List StyleTag → String → Option Nat
  | [], _ => none
  | t :: rest, nm =>
    match rposition rest nm with
    | some i => some (i + 1)
    | none => if t.name = nm then some 0 else none

/-- Comma-separated quoted names, as `Debug` prints a `Vec<String>`. -/
def reprNamesSep : List String → List Char
  | [] => []
  | [n] => '"' :: n.toList ++ ['"']
  | n :: m :: rest => ('"' :: n.toList ++ ['"']) ++ ',' :: ' ' :: reprNamesSep (m :: rest)

/-- The `format!("{:?}")` rendering of the unclosed-tag name list. -/
def reprNames (names : List String) : List Char :=
  '[' :: reprNamesSep names ++ [']']

/-- The hard error raised for tags still open at end of template. -/
def unclosedMessage (names : List String) : List Char :=
  "Unclosed style tags at end of template: ".toList ++ reprNames names ++
    ". Each opening tag like (bold) must have a matching closing tag like (/bold).".toList

/-- Main loop of `process_styles`, carrying the open-tag stack and
returning the produced output together with the final stack.  Fuelled to
stay structural: every iteration consumes at least one character, so the
fuel `chars.length + 1` used by `processStyles` always suffices.
Handlebars `{{...}}` spans are copied verbatim; a parsed closing tag
removes the last matching stack entry (if any) and always emits its
closing code; a parsed opening tag emits its opening code and is pushed
unless it is a `sym` tag; anything else is copied through. -/
def processCoreF (resolveColor : String → Except (List Char) (Nat × Nat × Nat))
    (resolveSymbol : String → Except (List Char) (List Char)) :
    Nat → List StyleTag → List Char → Except (List Char) (List Char × List StyleTag)
  | 0, _, _ => .error "out of fuel".toList
  | fuel + 1, stack, chars =>
    match chars with
    | [] => .ok ([], stack)
    | c1 :: rest =>
      if c1 = '{' ∧ rest.head? = some '{' then
        let p := hbSpan rest
        match processCoreF resolveColor resolveSymbol fuel stack p.2 with
        | .ok out => .ok (c1 :: (p.1 ++ out.1), out.2)
        | .error e => .error e
      else if c1 = '(' then
        match parseStyleTag (c1 :: rest) with
        | some (tag, n) =>
          if tag.isClosing then
            let stack2 :=
              match rposition stack tag.name with
              | some idx => stack.eraseIdx idx
              | none => stack
            match getClosingCode tag.name with
            | .ok code =>
              match processCoreF resolveColor resolveSymbol fuel stack2 ((c1 :: rest).drop n) with
              | .ok out => .ok (code ++ out.1, out.2)
              | .error e => .error e
            | .error e => .error e
          else
            match getOpeningCode resolveColor resolveSymbol tag with
            | .ok code =>
              let stack2 := if tag.name ≠ "sym" then stack ++ [tag] else stack
              match processCoreF resolveColor resolveSymbol fuel stack2 ((c1 :: rest).drop n) with
              | .ok out => .ok (code ++ out.1, out.2)
              | .error e => .error e
            | .error e => .error e
        | none =>
          match processCoreF resolveColor resolveSymbol fuel stack rest with
          | .ok out => .ok (c1 :: out.1, out.2)
          | .error e => .error e
      else
        match processCoreF resolveColor resolveSymbol fuel stack rest with
        | .ok out => .ok (c1 :: out.1, out.2)
        | .error e => .error e

/-- Model of `process_styles`: run the scanner with an empty stack, then
fail listing every unclosed tag name if the stack is nonempty. -/
def processStyles (resolveColor : String → Except (List Char) (Nat × Nat × Nat))
    (resolveSymbol : String → Except (List Char) (List Char)) (template : List Char) :
    Except (List Char) (List Char) :=
  match processCoreF resolveColor resolveSymbol (template.length + 1) [] template with
  | .error e => .error e
  | .ok out =>
    if out.2 = [] then .ok out.1
    else .error (unclosedMessage (out.2.map StyleTag.name))

/-- A well-formed SGR opening sequence `ESC[` + parameter bytes + `m`. -/
def escOpen (body : List Char) : List Char := '\x1b' :: '[' :: (body ++ ['m'])

/-- The well-formed SGR reset sequence `ESC[0m`. -/
def escClose : List Char := "\x1b[0m".toList

/-- Facts about a single hexadecimal digit character packaged as one
decidable check (used to transfer concrete computations to the 22
members of `hexDigits`). -/
def hexCharFact (c : Char) : Bool :=
  (c.utf8Size == 1) && (c != '#') && (c != '+') && decide (hexVal c ≤ 15) &&
    (Nat.digitChar (hexVal c) == c.toLower)

/-! ## Helper lemmas -/

theorem find?_rev_range_some (p : Nat → Bool) (n i : Nat)
    (h : ((List.range n).reverse).find? p = some i) :
    i < n ∧ p i = true ∧ ∀ j, i < j → j < n → p j = false := by
  induction n with
  | zero => simp at h
  | succ n ih =>
    rw [show (List.range (n + 1)).reverse = n :: (List.range n).reverse by
      simp [List.range_succ]] at h
    by_cases hp : p n
    · rw [List.find?_cons_of_pos _ hp] at h
      injection h with h
      subst h
      exact ⟨Nat.lt_succ_self n, hp, fun j h1 h2 => ((by omega : False)).elim⟩
    · rw [List.find?_cons_of_neg _ hp] at h
      obtain ⟨h1, h2, h3⟩ := ih h
      refine ⟨by omega, h2, fun j hj1 hj2 => ?_⟩
      by_cases hj : j = n
      · subst hj; simpa using hp
      · exact h3 j hj1 (by omega)

theorem find?_rev_range_none (p : Nat → Bool) (n : Nat)
    (h : ((List.range n).reverse).find? p = none) :
    ∀ j, j < n → p j = false := by
  induction n with
  | zero => omega
  | succ n ih =>
    rw [show (List.range (n + 1)).reverse = n :: (List.range n).reverse by
      simp [List.range_succ]] at h
    by_cases hp : p n
    · rw [List.find?_cons_of_pos _ hp] at h
      exact absurd h (by simp)
    · rw [List.find?_cons_of_neg _ hp] at h
      intro j hj
      by_cases hjn : j = n
      · subst hjn; simpa using hp
      · exact ih h j (by omega)

theorem getD_take {α : Type} (l : List α) (n i : Nat) (d : α) (h : i < n) :
    (l.take n).getD i d = l.getD i d := by
  simp [List.getD, List.getElem?_take, h]

theorem takeBytes_isSome_iff (t : List Char) : ∀ i : Nat,
    (takeBytes i t).isSome = true ↔ i ∈ byteOffsets t := by
  induction t with
  | nil =>
    intro i
    cases i <;> simp [takeBytes, byteOffsets]
  | cons c rest ih =>
    intro i
    cases i with
    | zero => simp [takeBytes, byteOffsets]
    | succ k =>
      simp only [takeBytes, byteOffsets]
      by_cases hsz : c.utf8Size ≤ k + 1
      · rw [if_pos hsz]
        rw [Option.isSome_map', ih]
        constructor
        · intro hmem
          refine List.mem_cons_of_mem _ (List.mem_map.mpr ⟨k + 1 - c.utf8Size, hmem, by omega⟩)
        · intro hmem
          rcases List.mem_cons.mp hmem with h0 | hmap
          · omega
          · obtain ⟨o, ho, hoeq⟩ := List.mem_map.mp hmap
            have : o = k + 1 - c.utf8Size := by omega
            rwa [← this]
      · rw [if_neg hsz]
        simp only [Option.isSome_none, Bool.false_eq_true, false_iff]
        intro hmem
        rcases List.mem_cons.mp hmem with h0 | hmap
        · omega
        · obtain ⟨o, _, hoeq⟩ := List.mem_map.mp hmap
          omega

theorem isCharBoundary_iff (t : List Char) (i : Nat) :
    isCharBoundary t i = true ↔ i ∈ byteOffsets t := by
  simp [isCharBoundary]

/-! ## C1 -/

/-- C1: the claimed non-overlap of the three sections fails.  At buffer
width 10 with no left text, center `cccccc` and right `rrrr`,
`write_three_sections` computes center column 2 (occupying columns 2-7)
and right column 6 (the `min` clamp selects `width - right_width`), so
the right write starts inside the center run and overwrites its last two
columns; the rendered row shows the center truncated to `cccc`. -/
theorem c1_write_three_sections_overlap :
    centerCol 10 0 6 = 2 ∧
    rightColumn 10 0 6 4 true = 6 ∧
    rightColumn 10 0 6 4 true < centerCol 10 0 6 + strWidth "cccccc".toList ∧
    (writeThreeSections 10 (List.replicate 10 ' ') (List.replicate 10 "") none
        (some "cccccc".toList) (some "rrrr".toList) none none none).1 =
      "  ccccrrrr".toList :=
  ⟨rfl, rfl, by decide, by decide⟩

/-! ## C5 -/

/-- C5: `fill_space` emits exactly
`terminal_width - visible_width(left) - visible_width(right) - offset`
literal spaces when that quantity is positive and nothing otherwise,
measuring both texts ANSI-aware; and the first-line composition of
`left = "user"`, `right = "12:00"` at terminal width 20 puts exactly 11
literal spaces between them. -/
theorem c5_fill_space_spaces (w o : Nat) (l r : List Char) :
    (visibleWidth l + visibleWidth r + o < w →
      fillSpace w l r o = List.replicate (w - (visibleWidth l + visibleWidth r + o)) ' ') ∧
    (w ≤ visibleWidth l + visibleWidth r + o → fillSpace w l r o = []) ∧
    fillSpace 20 "user".toList "12:00".toList 0 = List.replicate 11 ' ' ∧
    buildFirstLine 20 "user".toList "12:00".toList =
      "user".toList ++ List.replicate 11 ' ' ++ "12:00".toList := by
  refine ⟨fun h => ?_, fun h => ?_, by decide, by decide⟩
  · simp [fillSpace, h]
  · have h2 : ¬ (visibleWidth l + visibleWidth r + o < w) := by omega
    simp [fillSpace, h2]

/-- Witness for C5 at concrete inputs. -/
theorem c5_fill_space_spaces_witness :
    fillSpace 20 "user".toList "12:00".toList 0 =
      List.replicate (20 - (visibleWidth "user".toList + visibleWidth "12:00".toList + 0)) ' ' :=
  (c5_fill_space_spaces 20 0 "user".toList "12:00".toList).1 (by decide)

/-! ## C3 -/

/-- C3: `format_time` is not a function of its `time_value` argument and
the render context alone: the model (with the wall clock passed
explicitly, exactly where the source calls `Local::now()`) ignores
`time_value` entirely, and two evaluations with identical textual
arguments but different wall-clock instants produce different outputs. -/
theorem c3_format_time_reads_clock :
    (∀ tv tv2 f now, formatTimeHelper tv f now = formatTimeHelper tv2 f now) ∧
    formatTimeHelper "12:34:56".toList "%H:%M:%S".toList ⟨10, 0, 0⟩ = "10:00:00".toList ∧
    formatTimeHelper "12:34:56".toList "%H:%M:%S".toList ⟨11, 0, 0⟩ = "11:00:00".toList ∧
    formatTimeHelper "12:34:56".toList "%H:%M:%S".toList ⟨10, 0, 0⟩ ≠
      formatTimeHelper "12:34:56".toList "%H:%M:%S".toList ⟨11, 0, 0⟩ :=
  ⟨fun _ _ _ _ => rfl, by decide, by decide, by decide⟩

/-- Witness for C3 at concrete inputs. -/
theorem c3_format_time_reads_clock_witness :
    formatTimeHelper "a".toList "%H".toList ⟨1, 2, 3⟩ =
      formatTimeHelper "b".toList "%H".toList ⟨1, 2, 3⟩ :=
  c3_format_time_reads_clock.1 "a".toList "b".toList "%H".toList ⟨1, 2, 3⟩

/-! ## C10 -/

/-- C10 counterexample: the truncate helper is not total.  On the
5-character input `ééééé` (10 UTF-8 bytes) with `max_len = 6` the cut
index `6 - 3 = 3` falls inside the second two-byte character, and the
byte slice panics (modelled as `none`). -/
theorem c10_truncate_panic_counterexample :
    truncateHelper "ééééé".toList 6 = none := by decide

/-- C10 amended: `truncate(text, max_len)` evaluates without panicking
exactly on the inputs where no byte slice is taken (text already short
enough) or where the cut index `max_len - 3` is a character boundary of
the text; in particular it is total on all ASCII text. -/
theorem c10_truncate_total_on_boundary (t : List Char) (n : Nat)
    (h : byteLen t ≤ n ∨ isCharBoundary t (n - 3) = true) :
    (truncateHelper t n).isSome = true := by
  by_cases hlen : n < byteLen t
  · have hb : isCharBoundary t (n - 3) = true := by
      rcases h with h | h
      · omega
      · exact h
    simp only [truncateHelper, if_pos hlen, Option.isSome_map']
    exact (takeBytes_isSome_iff t (n - 3)).mpr ((isCharBoundary_iff t (n - 3)).mp hb)
  · simp [truncateHelper, hlen]

/-- Witness for C10 at a concrete input. -/
theorem c10_truncate_total_on_boundary_witness :
    (truncateHelper "abcdef".toList 4).isSome = true :=
  c10_truncate_total_on_boundary "abcdef".toList 4 (Or.inr (by decide))

/-! ## C7 -/

theorem clampQ_of_one_le (a : ℚ) (h : 1 ≤ a) : clampQ a 0 1 = 1 := by
  rw [clampQ, max_eq_right (by linarith : (0 : ℚ) ≤ a), min_eq_left h]

theorem clampQ_of_nonpos (a : ℚ) (h : a ≤ 0) : clampQ a 0 1 = 0 := by
  rw [clampQ, max_eq_left h, min_eq_right (by norm_num : (0 : ℚ) ≤ 1)]

theorem clampQ_of_unit (a : ℚ) (h0 : 0 ≤ a) (h1 : a ≤ 1) : clampQ a 0 1 = a := by
  rw [clampQ, max_eq_right h0, min_eq_right h1]

theorem truncU8_natCast (n : Nat) (h : n ≤ 255) : truncU8 (n : ℚ) = n := by
  rw [truncU8, Int.floor_natCast, Int.toNat_natCast, min_eq_right h]

/-- C7: `lighten`/`darken` clamp their amount into `[0, 1]` and
interpolate linearly toward white/black with truncation: amount 1 gives
all-255 / all-0 channels, amount 0 is the identity, amounts outside the
interval are clamped, amounts inside follow the truncated interpolation
formula, and `lighten(black, 1/2)` truncates 127.5 down to 127. -/
theorem c7_lighten_darken (c : Color) (hr : c.r ≤ 255) (hg : c.g ≤ 255) (hb : c.b ≤ 255) :
    lighten c 1 = ⟨255, 255, 255⟩ ∧ darken c 1 = ⟨0, 0, 0⟩ ∧
    lighten c 0 = c ∧ darken c 0 = c ∧
    (∀ a : ℚ, 1 ≤ a → lighten c a = lighten c 1 ∧ darken c a = darken c 1) ∧
    (∀ a : ℚ, a ≤ 0 → lighten c a = lighten c 0 ∧ darken c a = darken c 0) ∧
    (∀ a : ℚ, 0 ≤ a → a ≤ 1 →
      lighten c a = ⟨truncU8 ((c.r : ℚ) + (255 - (c.r : ℚ)) * a),
                     truncU8 ((c.g : ℚ) + (255 - (c.g : ℚ)) * a),
                     truncU8 ((c.b : ℚ) + (255 - (c.b : ℚ)) * a)⟩ ∧
      darken c a = ⟨truncU8 ((c.r : ℚ) * (1 - a)),
                    truncU8 ((c.g : ℚ) * (1 - a)),
                    truncU8 ((c.b : ℚ) * (1 - a))⟩) ∧
    lighten ⟨0, 0, 0⟩ (1 / 2) = ⟨127, 127, 127⟩ := by
  have h255 : truncU8 (255 : ℚ) = 255 := by
    have hcast : ((255 : Nat) : ℚ) = 255 := by norm_num
    rw [← hcast, truncU8_natCast 255 le_rfl]
  have h0 : truncU8 (0 : ℚ) = 0 := by
    have hcast : ((0 : Nat) : ℚ) = 0 := by norm_num
    rw [← hcast, truncU8_natCast 0 (by omega)]
  have hlight1 : lighten c 1 = ⟨255, 255, 255⟩ := by
    rw [lighten]
    rw [clampQ_of_one_le 1 le_rfl]
    congr 1 <;> rw [show ∀ x : ℚ, x + (255 - x) * 1 = 255 from fun x => by ring] <;> exact h255
  have hdark1 : darken c 1 = ⟨0, 0, 0⟩ := by
    rw [darken]
    rw [clampQ_of_one_le 1 le_rfl]
    congr 1 <;> rw [show ∀ x : ℚ, x * (1 - 1) = 0 from fun x => by ring] <;> exact h0
  have hlight0 : lighten c 0 = c := by
    rw [lighten]
    rw [clampQ_of_nonpos 0 le_rfl]
    cases c with
    | mk r g b =>
      congr 1 <;> rw [show ∀ x : ℚ, x + (255 - x) * 0 = x from fun x => by ring]
      · exact truncU8_natCast r hr
      · exact truncU8_natCast g hg
      · exact truncU8_natCast b hb
  have hdark0 : darken c 0 = c := by
    rw [darken]
    rw [clampQ_of_nonpos 0 le_rfl]
    cases c with
    | mk r g b =>
      congr 1 <;> rw [show ∀ x : ℚ, x * (1 - 0) = x from fun x => by ring]
      · exact truncU8_natCast r hr
      · exact truncU8_natCast g hg
      · exact truncU8_natCast b hb
  refine ⟨hlight1, hdark1, hlight0, hdark0, ?_, ?_, ?_, ?_⟩
  · intro a ha
    constructor
    · rw [lighten, lighten, clampQ_of_one_le a ha, clampQ_of_one_le 1 le_rfl]
    · rw [darken, darken, clampQ_of_one_le a ha, clampQ_of_one_le 1 le_rfl]
  · intro a ha
    constructor
    · rw [lighten, lighten, clampQ_of_nonpos a ha, clampQ_of_nonpos 0 le_rfl]
    · rw [darken, darken, clampQ_of_nonpos a ha, clampQ_of_nonpos 0 le_rfl]
  · intro a h1 h2
    constructor
    · rw [lighten, clampQ_of_unit a h1 h2]
    · rw [darken, clampQ_of_unit a h1 h2]
  · rw [lighten, clampQ_of_unit (1 / 2) (by norm_num) (by norm_num)]
    have hhalf : ∀ x : ℚ, x = 0 → x + (255 - x) * (1 / 2) = 255 / 2 := by
      intro x hx; rw [hx]; ring
    have hfloor : truncU8 (255 / 2 : ℚ) = 127 := by
      rw [truncU8, show ⌊(255 / 2 : ℚ)⌋ = 127 by rw [Int.floor_eq_iff]; norm_num]
      rfl
    congr 1 <;> rw [hhalf _ (by norm_num)] <;> exact hfloor

/-- Witness for C7 at a concrete color. -/
theorem c7_lighten_darken_witness :
    lighten ⟨10, 20, 30⟩ 1 = ⟨255, 255, 255⟩ ∧ darken ⟨10, 20, 30⟩ 0 = ⟨10, 20, 30⟩ := by
  have h := c7_lighten_darken ⟨10, 20, 30⟩ (by norm_num) (by norm_num) (by norm_num)
  exact ⟨h.1, h.2.2.2.1⟩

/-! ## C8 -/

theorem visibleWidthAux_append (x : List Char) : ∀ (st : Bool) (y : List Char),
    visibleWidthAux st (x ++ y) = visibleWidthAux st x + visibleWidthAux (scanEsc st x) y := by
  induction x with
  | nil => intro st y; simp [visibleWidthAux, scanEsc]
  | cons c rest ih =>
    intro st y
    by_cases hesc : c = '\x1b'
    · simp only [List.cons_append, visibleWidthAux, scanEsc, if_pos hesc]
      exact ih true y
    · cases st with
      | true =>
        simp only [List.cons_append, visibleWidthAux, scanEsc, if_neg hesc, if_pos rfl]
        exact ih _ y
      | false =>
        simp only [List.cons_append, visibleWidthAux, scanEsc, if_neg hesc,
          Bool.false_eq_true, if_false, List.append_eq]
        rw [ih false y]
        omega

theorem escBody_skip (body : List Char) (h : ∀ ch ∈ body, ch ≠ 'm') :
    visibleWidthAux true (body ++ ['m']) = 0 ∧ scanEsc true (body ++ ['m']) = false := by
  induction body with
  | nil => constructor <;> simp [visibleWidthAux, scanEsc]
  | cons c rest ih =>
    have hc : c ≠ 'm' := h c (List.mem_cons_self c rest)
    have hrest := ih (fun ch hch => h ch (List.mem_cons_of_mem c hch))
    by_cases hesc : c = '\x1b'
    · constructor
      · simpa [visibleWidthAux, hesc] using hrest.1
      · simpa [scanEsc, hesc] using hrest.2
    · constructor
      · simpa [visibleWidthAux, hesc, hc] using hrest.1
      · simpa [scanEsc, hesc, hc] using hrest.2

theorem escOpen_skip (body : List Char) (h : ∀ ch ∈ body, ch ≠ 'm') (st : Bool) :
    visibleWidthAux st (escOpen body) = 0 ∧ scanEsc st (escOpen body) = false := by
  have hb : ∀ ch ∈ '[' :: body, ch ≠ 'm' := by
    intro ch hch
    rcases List.mem_cons.mp hch with h1 | h1
    · subst h1; decide
    · exact h ch h1
  have := escBody_skip ('[' :: body) hb
  constructor
  · simpa [escOpen, visibleWidthAux] using this.1
  · simpa [escOpen, scanEsc] using this.2

theorem escClose_skip (st : Bool) :
    visibleWidthAux st escClose = 0 ∧ scanEsc st escClose = false := by
  cases st <;> exact ⟨by decide, by decide⟩

/-- C8 counterexample: `visible_width` is not invariant under wrapping an
arbitrary substring of an arbitrary string in a well-formed
`ESC[...m ... ESC[0m` pair.  For `s = ESC,A` (a dangling escape), the
`A` is inside the unterminated skip span and `visible_width s = 0`, but
wrapping the substring `A` in `ESC[31m ... ESC[0m` terminates the
dangling span early and the wrapped string has visible width 1. -/
theorem c8_visible_width_wrap_counterexample :
    visibleWidth (['\x1b'] ++ escOpen ['3', '1'] ++ ['A'] ++ escClose ++ []) ≠
      visibleWidth (['\x1b'] ++ ['A'] ++ []) := by decide

/-- C8 amended: `visible_width` is invariant under wrapping a substring
in a well-formed `ESC[...m ... ESC[0m` pair provided both insertion
points lie outside any `ESC ... m` skip span of the original string,
i.e. provided the escape scanner ends in the ground state after the
prefix and after the wrapped substring (which holds in particular for
every escape-free string).  The skip spans themselves are exactly those
started by an `ESC` and ended by the next `m`, and only characters
outside them contribute display width. -/
theorem c8_visible_width_wrap (a b c body : List Char) (hbody : ∀ ch ∈ body, ch ≠ 'm')
    (ha : scanEsc false a = false) (hb : scanEsc false b = false) :
    visibleWidth (a ++ escOpen body ++ b ++ escClose ++ c) = visibleWidth (a ++ b ++ c) := by
  have hopen := escOpen_skip body hbody false
  have hclose := escClose_skip false
  rw [visibleWidth, visibleWidth]
  rw [show a ++ escOpen body ++ b ++ escClose ++ c =
      a ++ (escOpen body ++ (b ++ (escClose ++ c))) by simp [List.append_assoc]]
  rw [show a ++ b ++ c = a ++ (b ++ c) from List.append_assoc a b c]
  rw [visibleWidthAux_append a, visibleWidthAux_append a, ha]
  rw [visibleWidthAux_append (escOpen body), hopen.1, hopen.2]
  rw [visibleWidthAux_append b, visibleWidthAux_append b, hb]
  rw [visibleWidthAux_append escClose, hclose.1, hclose.2]
  omega

/-- Witness for C8 at concrete inputs. -/
theorem c8_visible_width_wrap_witness :
    visibleWidth ("ab".toList ++ escOpen ['3', '1'] ++ "cd".toList ++ escClose ++ "e".toList) =
      visibleWidth ("ab".toList ++ "cd".toList ++ "e".toList) :=
  c8_visible_width_wrap "ab".toList "cd".toList "e".toList ['3', '1'] (by decide) (by decide)
    (by decide)

/-! ## C2 -/

theorem splitOnChar_ne_nil (sep : Char) (l : List Char) : splitOnChar sep l ≠ [] := by
  cases l with
  | nil => simp [splitOnChar]
  | cons c rest => by_cases h : c = sep <;> simp [splitOnChar, h]

theorem splitOnChar_eq_self (sep : Char) (l : List Char) (h : ∀ c ∈ l, c ≠ sep) :
    splitOnChar sep l = [l] := by
  induction l with
  | nil => rfl
  | cons c rest ih =>
    have hc : c ≠ sep := h c (List.mem_cons_self c rest)
    have hrest := ih (fun x hx => h x (List.mem_cons_of_mem c hx))
    simp [splitOnChar, hc, hrest]

/-- C2 counterexample: on the single-segment-after-root path `~/a` in
`last` mode, `format_path` does not return the final segment unchanged:
the source prepends the ellipsis whenever the path contains a slash at
all (its own test asserts `…/documents` for `~/documents`). -/
theorem c2_format_path_counterexample :
    formatPath "~/a".toList "last".toList ≠ "a".toList := by decide

/-- C2 amended: `format_path("~/a/b/c/d", "depth:2") = "…/c/d"` and
`format_path("~/a/b", "last") = "…/b"` as claimed, but
`format_path("~/a", "last") = "…/a"`: in `last` mode every path that
contains a `/` gets the ellipsis prefix before its final segment, and
only a path with no `/` at all is returned unchanged. -/
theorem c2_format_path (p : List Char) :
    formatPath "~/a/b/c/d".toList "depth:2".toList = "…/c/d".toList ∧
    formatPath "~/a/b".toList "last".toList = "…/b".toList ∧
    formatPath "~/a".toList "last".toList = "…/a".toList ∧
    (p.contains '/' = false → formatPath p "last".toList = p) ∧
    (p.contains '/' = true →
      formatPath p "last".toList = "…/".toList ++ (splitOnChar '/' p).getLastD []) := by
  refine ⟨by decide, by decide, by decide, fun h => ?_, fun h => ?_⟩
  · simp at h
    have hnot : '/' ∉ p := h
    have hmem : ∀ c ∈ p, c ≠ '/' := fun x hx hx2 => hnot (hx2 ▸ hx)
    simp only [formatPath, if_pos rfl]
    rw [splitOnChar_eq_self '/' p hmem]
    simp [hnot]
  · simp at h
    have hin : '/' ∈ p := h
    obtain ⟨y, hy⟩ := Option.isSome_iff_exists.mp
      (List.getLast?_isSome.mpr (splitOnChar_ne_nil '/' p))
    simp only [formatPath, if_pos rfl]
    rw [hy]
    simp [hin, List.getLastD_eq_getLast?, hy]

/-- Witness for C2 at concrete inputs. -/
theorem c2_format_path_witness :
    formatPath "abc".toList "last".toList = "abc".toList :=
  (c2_format_path "abc".toList).2.2.2.1 (by decide)

/-! ## C6 -/

theorem hexChar_facts (c : Char) (hc : isHexDigitB c = true) :
    c.utf8Size = 1 ∧ c ≠ '#' ∧ c ≠ '+' ∧ hexVal c ≤ 15 ∧ Nat.digitChar (hexVal c) = c.toLower := by
  have hmem : c ∈ hexDigits := by simpa [isHexDigitB] using hc
  have hall : hexDigits.all hexCharFact = true := by decide
  have hfact := List.all_eq_true.mp hall c hmem
  simp only [hexCharFact, Bool.and_eq_true, beq_iff_eq, bne_iff_ne, ne_eq,
    decide_eq_true_eq] at hfact
  exact ⟨hfact.1.1.1.1, hfact.1.1.1.2, hfact.1.1.2, hfact.1.2, hfact.2⟩

theorem hexPair_div (a b : Nat) (hb : b ≤ 15) : (a * 16 + b) / 16 = a := by
  rw [Nat.mul_comm, Nat.mul_add_div (by norm_num), Nat.div_eq_of_lt (by omega), Nat.add_zero]

theorem hexPair_mod (a b : Nat) (hb : b ≤ 15) : (a * 16 + b) % 16 = b := by
  rw [Nat.mul_comm, Nat.mul_add_mod, Nat.mod_eq_of_lt (by omega)]

/-- C6: for every 6-hex-digit string (either case, with or without one
leading `#`), `from_hex` succeeds and `to_hex` of the result is `#`
followed by the lowercase digits; and every input whose digit part
(after stripping leading `#`) does not have byte length 6 is rejected
with an error. -/
theorem c6_from_hex_roundtrip (pre ds : List Char)
    (hpre : pre = [] ∨ pre = ['#']) (hlen : ds.length = 6)
    (hhex : ∀ c ∈ ds, isHexDigitB c = true) :
    (∃ col, fromHex (pre ++ ds) = some (.ok col) ∧
      toHex col = '#' :: ds.map Char.toLower) ∧
    (∀ input : List Char, byteLen (input.dropWhile (fun c => c = '#')) ≠ 6 →
      ∃ e, fromHex input = some (.error e)) := by
  constructor
  · rcases ds with _ | ⟨d0, _ | ⟨d1, _ | ⟨d2, _ | ⟨d3, _ | ⟨d4, _ | ⟨d5, _ | ⟨d6, rest⟩⟩⟩⟩⟩⟩⟩ <;>
      simp only [List.length] at hlen <;> try omega
    · have f0 := hexChar_facts d0 (hhex d0 (by simp))
      have f1 := hexChar_facts d1 (hhex d1 (by simp))
      have f2 := hexChar_facts d2 (hhex d2 (by simp))
      have f3 := hexChar_facts d3 (hhex d3 (by simp))
      have f4 := hexChar_facts d4 (hhex d4 (by simp))
      have f5 := hexChar_facts d5 (hhex d5 (by simp))
      have hd0 : (decide (d0 = '#')) = false := decide_eq_false f0.2.1
      have hdrop : (pre ++ [d0, d1, d2, d3, d4, d5]).dropWhile (fun c => decide (c = '#')) =
          [d0, d1, d2, d3, d4, d5] := by
        rcases hpre with rfl | rfl
        · simp [List.dropWhile_cons, hd0]
        · simp [List.dropWhile_cons, hd0]
      have hbyte : byteLen [d0, d1, d2, d3, d4, d5] = 6 := by
        simp [byteLen, f0.1, f1.1, f2.1, f3.1, f4.1, f5.1]
      have hs1 : sliceBytes 0 2 [d0, d1, d2, d3, d4, d5] = some [d0, d1] := by
        simp [sliceBytes, dropBytes, takeBytes, f0.1, f1.1]
      have hs2 : sliceBytes 2 4 [d0, d1, d2, d3, d4, d5] = some [d2, d3] := by
        simp [sliceBytes, dropBytes, takeBytes, f0.1, f1.1, f2.1, f3.1]
      have hs3 : sliceBytes 4 6 [d0, d1, d2, d3, d4, d5] = some [d4, d5] := by
        simp [sliceBytes, dropBytes, takeBytes, f0.1, f1.1, f2.1, f3.1, f4.1, f5.1]
      have hparse : ∀ x y : Char, isHexDigitB x = true → isHexDigitB y = true → x ≠ '+' →
          fromStrRadix16U8 [x, y] = .ok (hexVal x * 16 + hexVal y) := by
        intro x y hx hy hplus
        have hvx := (hexChar_facts x hx).2.2.2.1
        have hvy := (hexChar_facts y hy).2.2.2.1
        simp only [fromStrRadix16U8, if_neg hplus, parseHexDigitsU8]
        rw [if_neg (by simp)]
        rw [if_pos (by simp [hx, hy])]
        simp only [List.foldl]
        rw [if_pos (by omega)]
        norm_num
      have hp1 := hparse d0 d1 (hhex d0 (by simp)) (hhex d1 (by simp)) f0.2.2.1
      have hp2 := hparse d2 d3 (hhex d2 (by simp)) (hhex d3 (by simp)) f2.2.2.1
      have hp3 := hparse d4 d5 (hhex d4 (by simp)) (hhex d5 (by simp)) f4.2.2.1
      refine ⟨⟨hexVal d0 * 16 + hexVal d1, hexVal d2 * 16 + hexVal d3,
        hexVal d4 * 16 + hexVal d5⟩, ?_, ?_⟩
      · simp only [fromHex, hdrop, hbyte]
        rw [if_neg (by omega)]
        simp only [hs1, hp1, hs2, hp2, hs3, hp3]
      · simp only [toHex, hexByte]
        rw [hexPair_div _ _ f1.2.2.2.1, hexPair_mod _ _ f1.2.2.2.1,
          hexPair_div _ _ f3.2.2.2.1, hexPair_mod _ _ f3.2.2.2.1,
          hexPair_div _ _ f5.2.2.2.1, hexPair_mod _ _ f5.2.2.2.1]
        rw [f0.2.2.2.2, f1.2.2.2.2, f2.2.2.2.2, f3.2.2.2.2, f4.2.2.2.2, f5.2.2.2.2]
        simp
  · intro input hne
    refine ⟨"Invalid hex color: ".toList ++ input.dropWhile (fun c => c = '#'), ?_⟩
    simp only [fromHex]
    rw [if_pos hne]

/-- Witness for C6 at a concrete hex string. -/
theorem c6_from_hex_roundtrip_witness :
    ∃ col, fromHex (['#'] ++ ['1', 'A', '2', 'b', '3', 'C']) = some (.ok col) ∧
      toHex col = '#' :: (['1', 'A', '2', 'b', '3', 'C'].map Char.toLower) :=
  (c6_from_hex_roundtrip ['#'] ['1', 'A', '2', 'b', '3', 'C'] (Or.inr rfl) (by decide)
    (by decide)).1

/-! ## C9 -/

theorem lastNonSpace_lt (content : List Char) (h : content ≠ []) :
    lastNonSpace content < content.length := by
  rw [lastNonSpace]
  cases hf : ((List.range content.length).reverse).find?
      (fun i => content.getD i ' ' != ' ') with
  | none => simpa using List.length_pos.mpr h
  | some i =>
    simp only [Option.getD_some]
    exact (find?_rev_range_some _ _ _ hf).1

theorem lastNonSpace_after (content : List Char) :
    ∀ j, lastNonSpace content < j → j < content.length → content.getD j ' ' = ' ' := by
  intro j h1 h2
  rw [lastNonSpace] at h1
  cases hf : ((List.range content.length).reverse).find?
      (fun i => content.getD i ' ' != ' ') with
  | none =>
    have := find?_rev_range_none _ _ hf j h2
    simpa using this
  | some i =>
    rw [hf] at h1
    simp only [Option.getD_some] at h1
    have := (find?_rev_range_some _ _ _ hf).2.2 j h1 h2
    simpa using this

theorem lastNonSpace_take (content : List Char) (h : content ≠ []) :
    lastNonSpace (content.take (lastNonSpace content + 1)) = lastNonSpace content := by
  have hlt := lastNonSpace_lt content h
  have hlen : (content.take (lastNonSpace content + 1)).length = lastNonSpace content + 1 := by
    rw [List.length_take]
    omega
  cases hf : ((List.range content.length).reverse).find?
      (fun i => content.getD i ' ' != ' ') with
  | none =>
    have hzero : lastNonSpace content = 0 := by rw [lastNonSpace, hf]; rfl
    rw [hzero]
    have hsp : content.getD 0 ' ' = ' ' := by
      have := find?_rev_range_none _ _ hf 0 (List.length_pos.mpr h)
      simpa using this
    have ht0 : (content.take (0 + 1)).getD 0 ' ' = ' ' := by
      rw [getD_take _ _ _ _ (by omega)]
      exact hsp
    have hlen1 : (content.take (0 + 1)).length = 1 := by
      rw [List.length_take]
      have := List.length_pos.mpr h
      omega
    rw [lastNonSpace, hlen1]
    rw [show (List.range 1).reverse = [0] from rfl]
    rw [List.find?_cons_of_neg]
    · rfl
    · simp only [bne_iff_ne, ne_eq, not_not]
      exact ht0
  | some i =>
    have hi : lastNonSpace content = i := by rw [lastNonSpace, hf]; rfl
    obtain ⟨hilt, hip, _⟩ := find?_rev_range_some _ _ _ hf
    rw [hi] at hlen ⊢
    rw [lastNonSpace, hlen]
    rw [show (List.range (i + 1)).reverse = i :: (List.range i).reverse by simp [List.range_succ]]
    rw [List.find?_cons_of_pos]
    · rfl
    · rw [getD_take _ _ _ _ (by omega)]
      exact hip

theorem renderStep_take (content : List Char) (styles : List String) (n col : Nat)
    (hcol : col < n) (acc : List Char × String) :
    renderStep (content.take n) (styles.take n) acc col = renderStep content styles acc col := by
  rw [renderStep, renderStep, getD_take _ _ _ _ hcol, getD_take _ _ _ _ hcol]

theorem renderLoop_congr (content : List Char) (styles : List String) (n : Nat)
    (cols : List Nat) (h : ∀ i ∈ cols, i < n) : ∀ acc : List Char × String,
    cols.foldl (renderStep (content.take n) (styles.take n)) acc =
      cols.foldl (renderStep content styles) acc := by
  induction cols with
  | nil => intro acc; rfl
  | cons col rest ih =>
    intro acc
    rw [List.foldl_cons, List.foldl_cons,
      renderStep_take content styles n col (h col (List.mem_cons_self col rest))]
    exact ih (fun i hi => h i (List.mem_cons_of_mem col hi)) _

/-- C9: `render_line` trims trailing blank columns.  On every nonempty
row: every cell past the last non-space index is a space; the output is
exactly the output on the row truncated just after the last non-space
cell (so nothing is emitted for the trailing blank columns); a row with
no non-space cell renders as at most one styled space, with no further
glyph; and when the final emitted cell carries a non-empty style the
output is closed with the SGR reset code. -/
theorem c9_render_line_trims (content : List Char) (styles : List String) (h : content ≠ []) :
    (∀ j, lastNonSpace content < j → j < content.length → content.getD j ' ' = ' ') ∧
    renderLine content styles =
      renderLine (content.take (lastNonSpace content + 1))
        (styles.take (lastNonSpace content + 1)) ∧
    ((∀ c ∈ content, c = ' ') →
      renderLine content styles =
        if styles.getD 0 "" = "" then [' ']
        else (styles.getD 0 "").toList ++ [' '] ++ resetCode) ∧
    (content.getD (lastNonSpace content) ' ' ≠ '\x00' →
      styles.getD (lastNonSpace content) "" ≠ "" →
      ∃ out, renderLine content styles = out ++ resetCode) := by
  refine ⟨lastNonSpace_after content, ?_, ?_, ?_⟩
  · rw [renderLine, renderLine, lastNonSpace_take content h, renderLoop, renderLoop,
      renderLoop_congr content styles (lastNonSpace content + 1) _
        (fun i hi => List.mem_range.mp hi)]
  · intro hall
    have hgetAll : ∀ x : Nat, content.getD x ' ' = ' ' := by
      intro x
      rcases Nat.lt_or_ge x content.length with hx | hx
      · have hmem : content.getD x ' ' ∈ content := by
          rw [List.getD_eq_getElem _ _ hx]
          exact List.getElem_mem _
        exact hall _ hmem
      · rw [List.getD_eq_default]
        omega
    have hzero : lastNonSpace content = 0 := by
      rw [lastNonSpace, List.find?_eq_none.mpr]
      · rfl
      · intro x _
        simp only [bne_iff_ne, ne_eq, not_not, decide_eq_false_iff_not]
        exact hgetAll x
    rw [renderLine, hzero]
    have hg0 : content[0]?.getD ' ' = ' ' := by
      rw [← List.getD_eq_getElem?_getD]
      exact hgetAll 0
    by_cases hst : styles.getD 0 "" = ""
    · have hst2 : styles[0]?.getD "" = "" := by
        rw [← List.getD_eq_getElem?_getD]
        exact hst
      simp [renderLoop, renderStep, List.range_succ, hg0, hst2, resetCode,
        List.getD_eq_getElem?_getD]
    · have hst2 : ¬ styles[0]?.getD "" = "" := by
        rw [← List.getD_eq_getElem?_getD]
        exact hst
      simp [renderLoop, renderStep, List.range_succ, hg0, hst2, resetCode,
        List.getD_eq_getElem?_getD]
  · intro hch hst
    rw [renderLine]
    rw [show List.range (lastNonSpace content + 1) =
      List.range (lastNonSpace content) ++ [lastNonSpace content] by simp [List.range_succ]]
    rw [renderLoop, List.foldl_append, List.foldl_cons, List.foldl_nil]
    have h2 : (renderStep content styles
        (List.foldl (renderStep content styles) ([], "") (List.range (lastNonSpace content)))
        (lastNonSpace content)).2 = styles.getD (lastNonSpace content) "" := by
      simp only [renderStep, if_neg hch]
      by_cases hd : styles.getD (lastNonSpace content) "" =
          (List.foldl (renderStep content styles) ([], "")
            (List.range (lastNonSpace content))).2
      · rw [if_neg (by simp only [ne_eq, not_not]; exact hd)]
        exact hd.symm
      · rw [if_pos (by simp only [ne_eq]; exact hd)]
    rw [h2, if_pos hst]
    exact ⟨_, rfl⟩

/-- Witness for C9 at a concrete row. -/
theorem c9_render_line_trims_witness :
    ∃ out, renderLine ['a'] ["x"] = out ++ resetCode :=
  (c9_render_line_trims ['a'] ["x"] (by decide)).2.2.2 (by decide) (by decide)

/-! ## C4 -/

theorem name_in_reprNamesSep (nm : String) (names : List String) (hmem : nm ∈ names) :
    nm.toList <:+: reprNamesSep names := by
  induction names with
  | nil => simp at hmem
  | cons n rest ih =>
    rcases List.mem_cons.mp hmem with heq | hrest
    · subst heq
      cases rest with
      | nil => exact ⟨['"'], ['"'], by simp [reprNamesSep]⟩
      | cons m rest2 =>
        exact ⟨['"'], '"' :: ',' :: ' ' :: reprNamesSep (m :: rest2), by simp [reprNamesSep]⟩
    · cases rest with
      | nil => simp at hrest
      | cons m rest2 =>
        have hi := ih hrest
        have hsuf : reprNamesSep (m :: rest2) <:+: reprNamesSep (n :: m :: rest2) :=
          ⟨('"' :: n.toList ++ ['"']) ++ [',', ' '], [], by simp [reprNamesSep]⟩
        exact hi.trans hsuf

theorem name_in_unclosedMessage (nm : String) (names : List String) (hmem : nm ∈ names) :
    nm.toList <:+: unclosedMessage names := by
  obtain ⟨s, t, hst⟩ := name_in_reprNamesSep nm names hmem
  refine ⟨"Unclosed style tags at end of template: ".toList ++ '[' :: s,
    t ++ [']'] ++
      ". Each opening tag like (bold) must have a matching closing tag like (/bold).".toList, ?_⟩
  rw [unclosedMessage, reprNames, ← hst]
  simp

/-- C4: during style-tag resolution, a closing tag with no matching open
tag on the stack still succeeds and emits the paired SGR reset code (for
every valid style name, and for every color/symbol resolver); the input
`(bold)text` fails with the hard error listing `bold` as unclosed; and in
general whenever the scan finishes with a nonempty stack of open tags,
`process_styles` fails with an error that lists every unclosed tag name
(each name occurs verbatim in the message). -/
theorem c4_process_styles_unclosed
    (rc : String → Except (List Char) (Nat × Nat × Nat))
    (rs : String → Except (List Char) (List Char)) :
    (∀ nm ∈ validStyles, ∃ code, getClosingCode nm = .ok code ∧
      processStyles rc rs ('(' :: '/' :: nm.toList ++ ')' :: "text".toList) =
        .ok (code ++ "text".toList)) ∧
    (processStyles rc rs "(bold)text".toList = .error (unclosedMessage ["bold"]) ∧
      "bold".toList <:+: unclosedMessage ["bold"]) ∧
    (∀ (t out : List Char) (stack : List StyleTag),
      processCoreF rc rs (t.length + 1) [] t = .ok (out, stack) → stack ≠ [] →
      processStyles rc rs t = .error (unclosedMessage (stack.map StyleTag.name)) ∧
      ∀ tag ∈ stack, tag.name.toList <:+: unclosedMessage (stack.map StyleTag.name)) := by
  refine ⟨?_, ⟨rfl, name_in_unclosedMessage "bold" ["bold"] (by simp)⟩, ?_⟩
  · intro nm hmem
    simp only [validStyles] at hmem
    fin_cases hmem <;> exact ⟨_, rfl, rfl⟩
  · intro t out stack hcore hne
    constructor
    · rw [processStyles, hcore]
      simp [hne]
    · intro tag htag
      exact name_in_unclosedMessage tag.name _ (List.mem_map_of_mem StyleTag.name htag)

/-- Witness for C4 at a concrete resolver pair and tag name. -/
theorem c4_process_styles_unclosed_witness :
    ∃ code, getClosingCode "b" = .ok code ∧
      processStyles (fun _ => .error []) (fun _ => .error [])
        ('(' :: '/' :: "b".toList ++ ')' :: "text".toList) = .ok (code ++ "text".toList) :=
  (c4_process_styles_unclosed (fun _ => .error []) (fun _ => .error [])).1 "b" (by decide)

end Zush
